import Mathlib

/-!
Verification of the Tetris frontend game logic (`src/App.tsx`).

Boards are row-major lists of rows (top row first); cells are small
naturals: 0 = empty, 1 = settled, 2 = active-piece overlay (display only).
Piece shapes are row-major 0/1 grids.  JavaScript array reads out of range
yield `undefined` (falsy); the embedding uses `List.getD _ 0` / `List.getD _ []`,
which agrees with the source at every access the source actually performs.
React state setters (`setBoard`, `setScore`, ...) take effect only for the
next render; in the embedding a handler is a function from the captured
state to the next state, so a read of `board` or `score` inside a handler
sees the captured (pre-update) value exactly as the closure does in the
source.
-/

namespace Tetris

def BOARD_WIDTH : Nat := 10
def BOARD_HEIGHT : Nat := 20

abbrev Grid := List (List Nat)

/-- `TETROMINOS.I` from the source. -/
def TETROMINO_I : Grid := [[1, 1, 1, 1]]

/-- `TETROMINOS.O` from the source. -/
def TETROMINO_O : Grid := [[1, 1], [1, 1]]

/-- `TETROMINOS.T` from the source. -/
def TETROMINO_T : Grid := [[0, 1, 0], [1, 1, 1]]

/-- `TETROMINOS.S` from the source. -/
def TETROMINO_S : Grid := [[0, 1, 1], [1, 1, 0]]

/-- `TETROMINOS.Z` from the source. -/
def TETROMINO_Z : Grid := [[1, 1, 0], [0, 1, 1]]

/-- `TETROMINOS.J` from the source. -/
def TETROMINO_J : Grid := [[1, 0, 0], [1, 1, 1]]

/-- `TETROMINOS.L` from the source. -/
def TETROMINO_L : Grid := [[0, 0, 1], [1, 1, 1]]

/-- `Object.values(TETROMINOS)`: the seven canonical shapes in source order. -/
def tetrominoes : List Grid := [TETROMINO_I, TETROMINO_O, TETROMINO_T,
  TETROMINO_S, TETROMINO_Z, TETROMINO_J, TETROMINO_L]

/-- Cell of a grid at natural row/column indices; out of range reads 0
(JS `undefined`, falsy). -/
def cellAt (b : Grid) (r c : Nat) : Nat := (b.getD r []).getD c 0

/-- Cell of a grid at integer indices; callers only use it with
nonnegative indices (the source guards `newY >= 0` before reading). -/
def boardCell (b : Grid) (y x : Int) : Nat := cellAt b y.toNat x.toNat

/-- `canMove(piece, x, y)` (App.tsx:53-73): scans every occupied cell of
`piece`; fails on a column outside `[0, BOARD_WIDTH)`, a row `>= BOARD_HEIGHT`
(no lower bound on rows), or a collision with a nonzero board cell at a
row `>= 0`.  The board is the one captured by the closure. -/
def canMove (board piece : Grid) (x y : Int) : Bool :=
  (List.range piece.length).all fun row =>
    (List.range (piece.getD row []).length).all fun col =>
      if (piece.getD row []).getD col 0 ≠ 0 then
        if x + col < 0 ∨ (BOARD_WIDTH : Int) ≤ x + col ∨ (BOARD_HEIGHT : Int) ≤ y + row then
          false
        else if 0 ≤ y + row ∧ boardCell board (y + row) (x + col) ≠ 0 then
          false
        else
          true
      else
        true

/-- JS `l[i] = v` on a list of cells: in-range assignment; out of range is a
no-op here (the source never performs an out-of-range write: every write is
guarded by `canMove` or by explicit bounds checks). -/
def listSet (v : Nat) : List Nat → Int → List Nat
  | [], _ => []
  | a :: as, i => if i = 0 then v :: as else a :: listSet v as (i - 1)

/-- JS `board[y][x] = v` on a grid, same in-range caveat as `listSet`. -/
def boardSet (v : Nat) : Grid → Int → Int → Grid
  | [], _, _ => []
  | r :: rs, y, x => if y = 0 then listSet v r x :: rs else r :: boardSet v rs (y - 1) x

/-- The occupied cells of a shape in the source's loop order:
`(row, col)` with `piece[row][col]` truthy. -/
def pieceCells (piece : Grid) : List (Nat × Nat) :=
  (List.range piece.length).flatMap fun row =>
    (List.range (piece.getD row []).length).filterMap fun col =>
      if (piece.getD row []).getD col 0 ≠ 0 then some (row, col) else none

/-- The piece-commit loop of `placePiece` (App.tsx:82-92): for every occupied
cell of the piece, if its board row `y + row` is `>= 0`, write 1 at
`(y + row, x + col)` of a copy of the board. -/
def place (board piece : Grid) (x y : Int) : Grid :=
  (pieceCells piece).foldl
    (fun b rc => if 0 ≤ y + (rc.1 : Int) then boardSet 1 b (y + rc.1) (x + rc.2) else b)
    board

/-- `newBoard[row].every(cell => cell === 1)` (App.tsx:97). -/
def fullRow (r : List Nat) : Bool := r.all fun cell => cell == 1

/-- `Array(BOARD_WIDTH).fill(0)` (App.tsx:99). -/
def emptyRow : List Nat := List.replicate BOARD_WIDTH 0

/-- An all-empty board, `Array(BOARD_HEIGHT).fill(null).map(() => Array(BOARD_WIDTH).fill(0))`. -/
def emptyBoard : Grid := List.replicate BOARD_HEIGHT emptyRow

/-- The line-clearing loop of `placePiece` (App.tsx:95-103), scanning from the
bottom row upward.  On a full row: `splice(row, 1)` then `unshift(emptyRow)`,
increment the count, and (`row++` followed by the loop's `row--`) re-examine
the same index.  The source loop runs at most `2 * BOARD_HEIGHT` steps on a
`BOARD_HEIGHT`-row board; the fuel makes that bound explicit. -/
def clearLoop : Nat → Grid → Int → Nat → Grid × Nat
  | 0, board, _, cleared => (board, cleared)
  | fuel + 1, board, row, cleared =>
    if row < 0 then (board, cleared)
    else if fullRow (board.getD row.toNat []) then
      clearLoop fuel (emptyRow :: board.eraseIdx row.toNat) row (cleared + 1)
    else
      clearLoop fuel board (row - 1) cleared

/-- The full line-clearing pass: start at the bottom row with count 0. -/
def clearFullRows (board : Grid) : Grid × Nat :=
  clearLoop (2 * BOARD_HEIGHT + 1) board ((BOARD_HEIGHT : Int) - 1) 0

/-- Rotation (App.tsx:178-180):
`currentPiece[0].map((_, i) => currentPiece.map(row => row[i]).reverse())`. -/
def rotateClockwise (piece : Grid) : Grid :=
  (List.range (piece.getD 0 []).length).map fun i =>
    (piece.map fun row => row.getD i 0).reverse

/-- Spawn column (App.tsx:114):
`Math.floor(BOARD_WIDTH / 2) - Math.floor(newPiece[0].length / 2)`. -/
def startX (newPiece : Grid) : Int :=
  ((BOARD_WIDTH / 2 : Nat) : Int) - (((newPiece.getD 0 []).length / 2 : Nat) : Int)

/-- The React state a handler invocation captures: game state plus the
connection flag (`ws.current && connected` is modelled by `connected`, which
the source sets only after `ws.current` is assigned and clears on close). -/
structure GameState where
  board : Grid
  currentPiece : Option Grid
  posX : Int
  posY : Int
  score : Nat
  gameOver : Bool
  gameStarted : Bool
  connected : Bool
deriving Repr, DecidableEq

/-- Outbound frames sent over the WebSocket. -/
inductive Msg
  | game_state (board : Grid) (score : Nat)
  | game_over (score : Nat)
deriving Repr, DecidableEq

/-- `placePiece` (App.tsx:76-139) as a function from the captured state (plus
the random pick `newPiece` of `getRandomPiece`, made a parameter) to the next
state and the list of frames sent.  Faithfully to the source closure:
the spawn legality check `canMove(newPiece, startX, 0)` reads `board` — the
captured, pre-lock board, not `newBoard`; and both outbound frames read
`score` — the captured, pre-update score (the engine's own score is updated
through the functional `setScore(prev => ...)`). -/
def placePiece (s : GameState) (newPiece : Grid) : GameState × List Msg :=
  match s.currentPiece with
  | none => (s, [])
  | some piece =>
    let afterPlace := place s.board piece s.posX s.posY
    let clearedPair := clearFullRows afterPlace
    let newBoard := clearedPair.1
    let linesCleared := clearedPair.2
    let newScore := if 0 < linesCleared then s.score + linesCleared * 100 else s.score
    if canMove s.board newPiece (startX newPiece) 0 then
      ({ s with board := newBoard, score := newScore,
                currentPiece := some newPiece, posX := startX newPiece, posY := 0 },
       if s.connected then [Msg.game_state newBoard s.score] else [])
    else
      ({ s with board := newBoard, score := newScore, gameOver := true },
       if s.connected then [Msg.game_over s.score] else [])

/-- `moveDown` (App.tsx:142-153). -/
def moveDown (s : GameState) (newPiece : Grid) : GameState × List Msg :=
  match s.currentPiece with
  | none => (s, [])
  | some piece =>
    if s.gameOver then (s, [])
    else if canMove s.board piece s.posX (s.posY + 1) then
      ({ s with posY := s.posY + 1 }, [])
    else
      placePiece s newPiece

/-- The four arrow keys the handler reacts to. -/
inductive Key
  | left
  | right
  | down
  | up
deriving Repr, DecidableEq

/-- `handleKeyPress` (App.tsx:156-186); `newPiece` is threaded through for the
spawn inside a lock reached via ArrowDown. -/
def handleKeyPress (s : GameState) (k : Key) (newPiece : Grid) : GameState × List Msg :=
  match s.currentPiece with
  | none => (s, [])
  | some piece =>
    if s.gameOver then (s, [])
    else
      match k with
      | .left =>
        if canMove s.board piece (s.posX - 1) s.posY then
          ({ s with posX := s.posX - 1 }, [])
        else (s, [])
      | .right =>
        if canMove s.board piece (s.posX + 1) s.posY then
          ({ s with posX := s.posX + 1 }, [])
        else (s, [])
      | .down => moveDown s newPiece
      | .up =>
        let rotated := rotateClockwise piece
        if canMove s.board rotated s.posX s.posY then
          ({ s with currentPiece := some rotated }, [])
        else (s, [])

/-- `startGame` (App.tsx:263-278): reset board/score/gameOver, spawn
`firstPiece` (the random pick, made a parameter) at the centered column of
row 0, mark the game started. -/
def startGame (s : GameState) (firstPiece : Grid) : GameState :=
  { s with board := emptyBoard, score := 0, gameOver := false,
           currentPiece := some firstPiece,
           posX := startX firstPiece, posY := 0,
           gameStarted := true }

/-- Inbound frames (App.tsx:239-253). -/
inductive InMsg
  | player_id (pid : String)
  | player_joined (pid : String)
  | opponent_state (board : Grid) (score : Nat)
  | player_game_over (score : Nat)
deriving Repr, DecidableEq

/-- The client-side state touched by the message handler. -/
structure ClientState where
  playerId : String
  opponentBoard : Grid
deriving Repr, DecidableEq

/-- `ws.current.onmessage` (App.tsx:239-253): `player_id` records the
identity, `opponent_state` replaces the opponent snapshot wholesale, the
other frames only log. -/
def onMessage (c : ClientState) (m : InMsg) : ClientState :=
  match m with
  | .player_id pid => { c with playerId := pid }
  | .player_joined _ => c
  | .opponent_state b _ => { c with opponentBoard := b }
  | .player_game_over _ => c

/-- The `displayBoard` computed by `renderBoard` (App.tsx:281-297): a copy of
`boardData`, with the active piece overlaid as value 2 only when rendering the
local board (`!isOpponent && currentPiece`), each overlay write guarded by
`0 <= y < BOARD_HEIGHT && 0 <= x < BOARD_WIDTH`. -/
def displayBoard (boardData : Grid) (isOpponent : Bool)
    (currentPiece : Option Grid) (px py : Int) : Grid :=
  match isOpponent, currentPiece with
  | false, some piece =>
    (pieceCells piece).foldl
      (fun b rc =>
        if 0 ≤ py + (rc.1 : Int) ∧ py + (rc.1 : Int) < (BOARD_HEIGHT : Int) ∧
           0 ≤ px + (rc.2 : Int) ∧ px + (rc.2 : Int) < (BOARD_WIDTH : Int) then
          boardSet 2 b (py + rc.1) (px + rc.2)
        else b)
      boardData
  | _, _ => boardData

/-- Every cell of the grid is 0 or 1 (the wire/engine invariant). -/
def cells01 (b : Grid) : Prop := ∀ r ∈ b, ∀ v ∈ r, v = 0 ∨ v = 1

instance : DecidablePred cells01 := fun b =>
  inferInstanceAs (Decidable (∀ r ∈ b, ∀ v ∈ r, v = 0 ∨ v = 1))

/-- Specification helper (not from the source): the piece, placed at offset
`(x, y)`, has an occupied cell on board square `(r, c)`. -/
def pieceHits (piece : Grid) (x y : Int) (r c : Nat) : Bool :=
  (pieceCells piece).any fun rc =>
    (y + (rc.1 : Int) == (r : Int)) && (x + (rc.2 : Int) == (c : Int))

/-! ### Plumbing: cell reads and writes -/

theorem listSet_length (v : Nat) (l : List Nat) (i : Int) :
    (listSet v l i).length = l.length := by
  induction l generalizing i with
  | nil => rfl
  | cons a as ih =>
    simp only [listSet]
    split <;> simp [ih]

theorem listSet_getD (v : Nat) (l : List Nat) (i : Int) (c : Nat) :
    (listSet v l i).getD c 0 =
      if (c : Int) = i ∧ c < l.length then v else l.getD c 0 := by
  induction l generalizing i c with
  | nil => simp [listSet]
  | cons a as ih =>
    simp only [listSet]
    by_cases hi : i = 0
    · subst hi
      cases c with
      | zero => simp
      | succ d =>
        rw [if_pos rfl, List.getD_cons_succ, List.getD_cons_succ,
          if_neg (by push_cast; omega)]
    · rw [if_neg hi]
      cases c with
      | zero => simp [Ne.symm hi]
      | succ d =>
        rw [List.getD_cons_succ, List.getD_cons_succ, ih]
        by_cases h : ((d : Int) = i - 1 ∧ d < as.length)
        · rw [if_pos h, if_pos (by
            simp only [List.length_cons]
            constructor
            · push_cast; omega
            · omega)]
        · rw [if_neg h, if_neg (by
            rintro ⟨h1, h2⟩
            simp only [List.length_cons] at h2
            exact h ⟨by push_cast at h1 ⊢; omega, by omega⟩)]

theorem boardSet_getD (v : Nat) (b : Grid) (y x : Int) (r : Nat) :
    (boardSet v b y x).getD r [] =
      if (r : Int) = y ∧ r < b.length then listSet v (b.getD r []) x
      else b.getD r [] := by
  induction b generalizing y r with
  | nil => simp [boardSet]
  | cons hd tl ih =>
    simp only [boardSet]
    by_cases hy : y = 0
    · subst hy
      cases r with
      | zero => simp
      | succ d =>
        rw [if_pos rfl, List.getD_cons_succ, List.getD_cons_succ,
          if_neg (by push_cast; omega)]
    · rw [if_neg hy]
      cases r with
      | zero => simp [Ne.symm hy]
      | succ d =>
        rw [List.getD_cons_succ, List.getD_cons_succ, ih]
        by_cases h : ((d : Int) = y - 1 ∧ d < tl.length)
        · rw [if_pos h, if_pos (by
            simp only [List.length_cons]
            constructor
            · push_cast; omega
            · omega)]
        · rw [if_neg h, if_neg (by
            rintro ⟨h1, h2⟩
            simp only [List.length_cons] at h2
            exact h ⟨by push_cast at h1 ⊢; omega, by omega⟩)]

theorem boardSet_length (v : Nat) (b : Grid) (y x : Int) :
    (boardSet v b y x).length = b.length := by
  induction b generalizing y with
  | nil => rfl
  | cons hd tl ih =>
    simp only [boardSet]
    split <;> simp [ih]

theorem boardSet_rowlen (v : Nat) (b : Grid) (y x : Int) (r : Nat) :
    ((boardSet v b y x).getD r []).length = (b.getD r []).length := by
  rw [boardSet_getD]
  split
  · exact listSet_length ..
  · rfl

theorem cellAt_boardSet (v : Nat) (b : Grid) (y x : Int) (r c : Nat) :
    cellAt (boardSet v b y x) r c =
      if (r : Int) = y ∧ (c : Int) = x ∧ r < b.length ∧ c < (b.getD r []).length
      then v else cellAt b r c := by
  unfold cellAt
  rw [boardSet_getD]
  by_cases h1 : (r : Int) = y ∧ r < b.length
  · rw [if_pos h1, listSet_getD]
    by_cases h2 : (c : Int) = x ∧ c < (b.getD r []).length
    · rw [if_pos h2, if_pos ⟨h1.1, h2.1, h1.2, h2.2⟩]
    · rw [if_neg h2, if_neg (by tauto)]
  · rw [if_neg h1, if_neg (by tauto)]

theorem mem_listSet {v a : Nat} {l : List Nat} {i : Int} (h : a ∈ listSet v l i) :
    a ∈ l ∨ a = v := by
  induction l generalizing i with
  | nil => simp [listSet] at h
  | cons hd tl ih =>
    simp only [listSet] at h
    split at h
    · rcases List.mem_cons.mp h with h | h
      · right; exact h
      · left; exact List.mem_cons_of_mem _ h
    · rcases List.mem_cons.mp h with h | h
      · left; simp [h]
      · rcases ih h with h | h
        · left; exact List.mem_cons_of_mem _ h
        · right; exact h

theorem cells01_boardSet {b : Grid} {y x : Int} {v : Nat}
    (hv : v = 0 ∨ v = 1) (hb : cells01 b) : cells01 (boardSet v b y x) := by
  induction b generalizing y with
  | nil => simpa [boardSet] using hb
  | cons hd tl ih =>
    simp only [boardSet]
    split
    · intro r hr w hw
      rcases List.mem_cons.mp hr with h | h
      · subst h
        rcases mem_listSet hw with h | h
        · exact hb hd (List.mem_cons_self ..) w h
        · subst h; exact hv
      · exact hb r (List.mem_cons_of_mem _ h) w hw
    · intro r hr w hw
      rcases List.mem_cons.mp hr with h | h
      · subst h; exact hb r (List.mem_cons_self ..) w hw
      · exact ih (fun r hr => hb r (List.mem_cons_of_mem _ hr)) r h w hw

theorem mem_pieceCells {piece : Grid} {rc : Nat × Nat} :
    rc ∈ pieceCells piece ↔
      rc.1 < piece.length ∧ rc.2 < (piece.getD rc.1 []).length ∧
      (piece.getD rc.1 []).getD rc.2 0 ≠ 0 := by
  obtain ⟨row, col⟩ := rc
  simp only [pieceCells, List.mem_flatMap, List.mem_filterMap, List.mem_range]
  constructor
  · rintro ⟨row1, hrow1, col1, hcol1, h⟩
    by_cases hx : (piece.getD row1 []).getD col1 0 ≠ 0
    · rw [if_pos hx] at h
      injection h with h
      injection h with hr hc
      subst hr
      subst hc
      exact ⟨hrow1, hcol1, hx⟩
    · rw [if_neg hx] at h
      exact Option.noConfusion h
  · rintro ⟨h1, h2, h3⟩
    exact ⟨row, h1, col, h2, by rw [if_pos h3]⟩

/-! ### Characterization of `place` -/

/-- One step of the piece-commit loop. -/
def placeStep (x y : Int) (b : Grid) (rc : Nat × Nat) : Grid :=
  if 0 ≤ y + (rc.1 : Int) then boardSet 1 b (y + rc.1) (x + rc.2) else b

theorem place_eq_foldl (board piece : Grid) (x y : Int) :
    place board piece x y = (pieceCells piece).foldl (placeStep x y) board := rfl

theorem placeStep_length (x y : Int) (b : Grid) (rc : Nat × Nat) :
    (placeStep x y b rc).length = b.length := by
  unfold placeStep
  split
  · exact boardSet_length ..
  · rfl

theorem placeStep_rowlen (x y : Int) (b : Grid) (rc : Nat × Nat) (r : Nat) :
    ((placeStep x y b rc).getD r []).length = (b.getD r []).length := by
  unfold placeStep
  split
  · exact boardSet_rowlen ..
  · rfl

theorem cellAt_placeStep (x y : Int) (b : Grid) (rc : Nat × Nat) (r c : Nat) :
    cellAt (placeStep x y b rc) r c =
      if (r : Int) = y + rc.1 ∧ (c : Int) = x + rc.2 ∧
         r < b.length ∧ c < (b.getD r []).length
      then 1 else cellAt b r c := by
  unfold placeStep
  by_cases h0 : 0 ≤ y + (rc.1 : Int)
  · rw [if_pos h0, cellAt_boardSet]
  · rw [if_neg h0, if_neg (by rintro ⟨h1, -⟩; omega)]

theorem cellAt_foldl_placeStep (x y : Int) (L : List (Nat × Nat)) (b : Grid)
    (r c : Nat) :
    cellAt (L.foldl (placeStep x y) b) r c =
      if (L.any fun rc => (y + (rc.1 : Int) == (r : Int)) &&
            (x + (rc.2 : Int) == (c : Int))) = true ∧
         r < b.length ∧ c < (b.getD r []).length
      then 1 else cellAt b r c := by
  induction L generalizing b with
  | nil => simp
  | cons rc L ih =>
    rw [List.foldl_cons, ih, placeStep_length, placeStep_rowlen, cellAt_placeStep,
      List.any_cons]
    simp only [Bool.or_eq_true, Bool.and_eq_true, beq_iff_eq]
    by_cases hR : r < b.length ∧ c < (b.getD r []).length
    · by_cases hA : (L.any fun rc =>
          (y + (rc.1 : Int) == (r : Int)) && (x + (rc.2 : Int) == (c : Int))) = true
      · rw [if_pos ⟨hA, hR⟩, if_pos ⟨Or.inr hA, hR⟩]
      · rw [if_neg (fun hcon => hA hcon.1)]
        by_cases hM : (r : Int) = y + rc.1 ∧ (c : Int) = x + rc.2
        · rw [if_pos ⟨hM.1, hM.2, hR.1, hR.2⟩,
            if_pos ⟨Or.inl ⟨hM.1.symm, hM.2.symm⟩, hR⟩]
        · rw [if_neg (by rintro ⟨h1, h2, -, -⟩; exact hM ⟨h1, h2⟩),
            if_neg (by
              rintro ⟨hml | ha2, -⟩
              · exact hM ⟨hml.1.symm, hml.2.symm⟩
              · exact hA ha2)]
    · rw [if_neg (by tauto), if_neg (by tauto), if_neg (by tauto)]

/-- Pointwise description of `place`: square `(r, c)` becomes 1 exactly when an
occupied piece cell lands on it (and it is inside the grid); every other
square keeps its value. -/
theorem cellAt_place (board piece : Grid) (x y : Int) (r c : Nat) :
    cellAt (place board piece x y) r c =
      if pieceHits piece x y r c = true ∧
         r < board.length ∧ c < (board.getD r []).length
      then 1 else cellAt board r c := by
  rw [place_eq_foldl, cellAt_foldl_placeStep]
  rfl

theorem place_length (board piece : Grid) (x y : Int) :
    (place board piece x y).length = board.length := by
  rw [place_eq_foldl]
  induction pieceCells piece generalizing board with
  | nil => rfl
  | cons rc L ih => rw [List.foldl_cons, ih, placeStep_length]

theorem place_rowlen (board piece : Grid) (x y : Int) (r : Nat) :
    ((place board piece x y).getD r []).length = (board.getD r []).length := by
  rw [place_eq_foldl]
  induction pieceCells piece generalizing board with
  | nil => rfl
  | cons rc L ih => rw [List.foldl_cons, ih, placeStep_rowlen]

theorem cells01_place {board : Grid} (piece : Grid) (x y : Int)
    (hb : cells01 board) : cells01 (place board piece x y) := by
  rw [place_eq_foldl]
  induction pieceCells piece generalizing board with
  | nil => exact hb
  | cons rc L ih =>
    rw [List.foldl_cons]
    refine ih ?_
    unfold placeStep
    split
    · exact cells01_boardSet (Or.inr rfl) hb
    · exact hb

theorem boardCell_mem01 {b : Grid} (h : cells01 b) (y x : Int) :
    boardCell b y x = 0 ∨ boardCell b y x = 1 := by
  unfold boardCell cellAt
  by_cases hr : y.toNat < b.length
  · have hmem : b.getD y.toNat [] ∈ b := by
      rw [List.getD_eq_getElem _ _ hr]
      exact List.getElem_mem hr
    by_cases hc : x.toNat < (b.getD y.toNat []).length
    · have hmem2 : (b.getD y.toNat []).getD x.toNat 0 ∈ b.getD y.toNat [] := by
        rw [List.getD_eq_getElem _ _ hc]
        exact List.getElem_mem hc
      exact h _ hmem _ hmem2
    · left
      rw [List.getD_eq_default _ _ (Nat.le_of_not_lt hc)]
  · left
    rw [List.getD_eq_default _ _ (Nat.le_of_not_lt hr), List.getD_nil]

/-! ### Characterization of `canMove` -/

theorem occ_lt {piece : Grid} {row col : Nat}
    (hocc : (piece.getD row []).getD col 0 ≠ 0) :
    row < piece.length ∧ col < (piece.getD row []).length := by
  constructor
  · by_contra hge
    rw [List.getD_eq_default _ _ (Nat.le_of_not_lt hge), List.getD_nil] at hocc
    exact hocc rfl
  · by_contra hge
    rw [List.getD_eq_default _ _ (Nat.le_of_not_lt hge)] at hocc
    exact hocc rfl

/-- `canMove` at code level: true iff every occupied cell has its column in
`[0, BOARD_WIDTH)`, its row below `BOARD_HEIGHT` (no lower bound), and, at
rows `>= 0`, lands on a zero board cell. -/
theorem canMove_iff_raw (board piece : Grid) (x y : Int) :
    canMove board piece x y = true ↔
      ∀ row col : Nat, (piece.getD row []).getD col 0 ≠ 0 →
        0 ≤ x + col ∧ x + col < (BOARD_WIDTH : Int) ∧
        y + row < (BOARD_HEIGHT : Int) ∧
        (0 ≤ y + row → boardCell board (y + row) (x + col) = 0) := by
  unfold canMove
  simp only [List.all_eq_true, List.mem_range]
  constructor
  · intro h row col hocc
    obtain ⟨hrow, hcol⟩ := occ_lt hocc
    have hthis := h row hrow col hcol
    rw [if_pos hocc] at hthis
    by_cases h1 : x + (col : Int) < 0 ∨ (BOARD_WIDTH : Int) ≤ x + col ∨
        (BOARD_HEIGHT : Int) ≤ y + row
    · rw [if_pos h1] at hthis
      exact absurd hthis Bool.false_ne_true
    · rw [if_neg h1] at hthis
      by_cases h2 : 0 ≤ y + (row : Int) ∧ boardCell board (y + row) (x + col) ≠ 0
      · rw [if_pos h2] at hthis
        exact absurd hthis Bool.false_ne_true
      · push_neg at h1 h2
        exact ⟨by omega, by omega, by omega, fun hge => h2 hge⟩
  · intro h row hrow col hcol
    by_cases hocc : (piece.getD row []).getD col 0 ≠ 0
    · rw [if_pos hocc]
      obtain ⟨ha, hb', hc, hd⟩ := h row col hocc
      rw [if_neg (by push_neg; exact ⟨by omega, by omega, by omega⟩),
        if_neg (by rintro ⟨hge, hne⟩; exact hne (hd hge))]
    · rw [if_neg hocc]

theorem pieceHits_iff {piece : Grid} {x y : Int} {r c : Nat} :
    pieceHits piece x y r c = true ↔
      ∃ row col : Nat, (piece.getD row []).getD col 0 ≠ 0 ∧
        y + (row : Int) = (r : Int) ∧ x + (col : Int) = (c : Int) := by
  unfold pieceHits
  rw [List.any_eq_true]
  constructor
  · rintro ⟨rc, hmem, hcond⟩
    rw [Bool.and_eq_true, beq_iff_eq, beq_iff_eq] at hcond
    exact ⟨rc.1, rc.2, (mem_pieceCells.mp hmem).2.2, hcond.1, hcond.2⟩
  · rintro ⟨row, col, h1, h2, h3⟩
    obtain ⟨hrow, hcol⟩ := occ_lt h1
    refine ⟨(row, col), mem_pieceCells.mpr ⟨hrow, hcol, h1⟩, ?_⟩
    rw [Bool.and_eq_true, beq_iff_eq, beq_iff_eq]
    exact ⟨h2, h3⟩

/-- C1.  `canMove` returns true iff every occupied cell of the shape, placed
at board position `(x+col, y+row)`, has its column inside `[0, BOARD_WIDTH)`,
its row strictly below `BOARD_HEIGHT` (no lower bound on the row), and,
whenever its row is `>= 0`, the board cell there is not Settled (not 1). -/
theorem canMove_characterization (board piece : Grid) (x y : Int)
    (_h20 : board.length = BOARD_HEIGHT)
    (_hw : ∀ r ∈ board, r.length = BOARD_WIDTH)
    (hb : cells01 board) :
    canMove board piece x y = true ↔
      ∀ row col : Nat, (piece.getD row []).getD col 0 ≠ 0 →
        0 ≤ x + col ∧ x + col < (BOARD_WIDTH : Int) ∧
        y + row < (BOARD_HEIGHT : Int) ∧
        (0 ≤ y + row → boardCell board (y + row) (x + col) ≠ 1) := by
  rw [canMove_iff_raw]
  constructor
  · intro h row col hocc
    obtain ⟨h1, h2, h3, h4⟩ := h row col hocc
    exact ⟨h1, h2, h3, fun hge => by rw [h4 hge]; omega⟩
  · intro h row col hocc
    obtain ⟨h1, h2, h3, h4⟩ := h row col hocc
    refine ⟨h1, h2, h3, fun hge => ?_⟩
    rcases boardCell_mem01 hb (y + row) (x + col) with h0 | h0
    · exact h0
    · exact absurd h0 (h4 hge)

/-- C1 witness: the characterization applied to the empty board and the O
piece at the spawn offset. -/
theorem canMove_characterization_witness :
    canMove emptyBoard TETROMINO_O 4 0 = true ↔
      ∀ row col : Nat, (TETROMINO_O.getD row []).getD col 0 ≠ 0 →
        0 ≤ 4 + (col : Int) ∧ 4 + (col : Int) < (BOARD_WIDTH : Int) ∧
        (0 : Int) + row < (BOARD_HEIGHT : Int) ∧
        (0 ≤ (0 : Int) + row → boardCell emptyBoard ((0 : Int) + row) (4 + col) ≠ 1) :=
  canMove_characterization emptyBoard TETROMINO_O 4 0 (by decide)
    (by decide) (by decide)

/-- C4.  If `canMove` holds at an offset then committing the piece there
changes only squares that were not previously Settled: every changed square
held 0 before and holds 1 after (occupied cells at board rows `< 0` are
silently ignored by `place` and change nothing). -/
theorem place_no_overlap_of_canMove (board piece : Grid) (x y : Int)
    (h : canMove board piece x y = true) :
    ∀ r c : Nat, cellAt (place board piece x y) r c ≠ cellAt board r c →
      cellAt board r c = 0 ∧ cellAt (place board piece x y) r c = 1 := by
  intro r c hne
  rw [cellAt_place] at hne ⊢
  by_cases hcond : pieceHits piece x y r c = true ∧
      r < board.length ∧ c < (board.getD r []).length
  · rw [if_pos hcond]
    obtain ⟨row, col, hocc, hr, hc⟩ := pieceHits_iff.mp hcond.1
    obtain ⟨-, -, -, h4⟩ := (canMove_iff_raw board piece x y).mp h row col hocc
    have hcell : boardCell board (y + row) (x + col) = 0 := h4 (by omega)
    have : cellAt board r c = 0 := by
      unfold boardCell at hcell
      rw [show ((y : Int) + row).toNat = r by omega,
        show ((x : Int) + col).toNat = c by omega] at hcell
      exact hcell
    exact ⟨this, rfl⟩
  · rw [if_neg hcond] at hne
    exact absurd rfl hne

/-- C4 witness: a concrete legal placement of the O piece on the empty board,
inspected at the changed square (18, 4). -/
theorem place_no_overlap_of_canMove_witness :
    cellAt emptyBoard 18 4 = 0 ∧
    cellAt (place emptyBoard TETROMINO_O 4 18) 18 4 = 1 :=
  place_no_overlap_of_canMove emptyBoard TETROMINO_O 4 18 (by decide) 18 4
    (by decide)

/-! ### Characterization of `clearFullRows` -/

theorem fullRow_emptyRow : fullRow emptyRow = false := by decide

/-- The line-clearing loop, under the invariant that every row strictly below
the scan index is already known non-full, removes exactly the full rows and
prepends that many empty rows. -/
theorem clearLoop_spec (fuel : Nat) :
    ∀ (board : Grid) (row : Int) (cleared : Nat),
      row < (board.length : Int) →
      (∀ r ∈ board.drop (row + 1).toNat, fullRow r = false) →
      (row + 1).toNat + board.countP fullRow ≤ fuel →
      clearLoop fuel board row cleared =
        (List.replicate (board.countP fullRow) emptyRow ++
           board.filter (fun r => !fullRow r),
         cleared + board.countP fullRow) := by
  induction fuel with
  | zero =>
    intro board row cleared hrow hafter hfuel
    have hneg : row < 0 := by omega
    have hall : ∀ r ∈ board, fullRow r = false := by
      intro r hr
      exact hafter r (by rwa [show ((row : Int) + 1).toNat = 0 by omega,
        List.drop_zero])
    have hcount : board.countP fullRow = 0 :=
      List.countP_eq_zero.mpr (fun a ha => by rw [hall a ha]; exact Bool.false_ne_true)
    have hfilter : board.filter (fun r => !fullRow r) = board :=
      List.filter_eq_self.mpr (fun a ha => by rw [hall a ha]; rfl)
    show (board, cleared) = _
    rw [hcount, hfilter]
    simp
  | succ fuel ih =>
    intro board row cleared hrow hafter hfuel
    have hstep : clearLoop (fuel + 1) board row cleared =
        if row < 0 then (board, cleared)
        else if fullRow (board.getD row.toNat []) then
          clearLoop fuel (emptyRow :: board.eraseIdx row.toNat) row (cleared + 1)
        else clearLoop fuel board (row - 1) cleared := rfl
    rw [hstep]
    by_cases hneg : row < 0
    · rw [if_pos hneg]
      have hall : ∀ r ∈ board, fullRow r = false := by
        intro r hr
        exact hafter r (by rwa [show ((row : Int) + 1).toNat = 0 by omega,
          List.drop_zero])
      have hcount : board.countP fullRow = 0 :=
        List.countP_eq_zero.mpr (fun a ha => by rw [hall a ha]; exact Bool.false_ne_true)
      have hfilter : board.filter (fun r => !fullRow r) = board :=
        List.filter_eq_self.mpr (fun a ha => by rw [hall a ha]; rfl)
      rw [hcount, hfilter]
      simp
    · rw [if_neg hneg]
      have hk : row.toNat < board.length := by omega
      have hgetd : board.getD row.toNat [] = board[row.toNat] :=
        List.getD_eq_getElem board [] hk
      have hsplit : board = board.take row.toNat ++
          board[row.toNat] :: board.drop (row.toNat + 1) := by
        conv_lhs => rw [← List.take_append_drop row.toNat board]
        rw [List.drop_eq_getElem_cons hk]
      have htklen : (board.take row.toNat).length = row.toNat := by
        simp [List.length_take]
        omega
      by_cases hfull : fullRow (board.getD row.toNat []) = true
      · rw [if_pos hfull]
        rw [hgetd] at hfull
        have herase : board.eraseIdx row.toNat =
            board.take row.toNat ++ board.drop (row.toNat + 1) :=
          List.eraseIdx_eq_take_drop_succ board row.toNat
        have hcount : board.countP fullRow =
            (emptyRow :: board.eraseIdx row.toNat).countP fullRow + 1 := by
          rw [herase, List.countP_cons, if_neg (by rw [fullRow_emptyRow]; exact
            Bool.false_ne_true), List.countP_append]
          conv_lhs => rw [hsplit]
          rw [List.countP_append, List.countP_cons, if_pos hfull]
          omega
        have hfilter : (emptyRow :: board.eraseIdx row.toNat).filter
              (fun r => !fullRow r) =
            emptyRow :: board.filter (fun r => !fullRow r) := by
          rw [herase, List.filter_cons, if_pos (by rw [fullRow_emptyRow]; rfl),
            List.filter_append]
          conv_rhs => rw [hsplit]
          rw [List.filter_append, List.filter_cons,
            if_neg (by rw [hfull]; exact fun h => Bool.noConfusion h)]
        have hlen : (emptyRow :: board.eraseIdx row.toNat).length = board.length := by
          rw [List.length_cons, List.length_eraseIdx_of_lt hk]
          omega
        have hafter' : ∀ r ∈ (emptyRow :: board.eraseIdx row.toNat).drop
            (row + 1).toNat, fullRow r = false := by
          intro r hr
          refine hafter r ?_
          rw [show ((row : Int) + 1).toNat = row.toNat + 1 by omega] at hr ⊢
          rw [herase, List.drop_succ_cons,
            List.drop_left' htklen] at hr
          exact hr
        rw [ih _ row (cleared + 1) (by rw [hlen]; exact hrow) hafter' (by omega)]
        rw [hfilter]
        have hrepl : List.replicate ((emptyRow :: board.eraseIdx row.toNat).countP
              fullRow) emptyRow ++
              (emptyRow :: board.filter fun r => !fullRow r) =
            List.replicate (board.countP fullRow) emptyRow ++
              (board.filter fun r => !fullRow r) := by
          rw [hcount, List.replicate_succ']
          simp
        rw [hrepl]
        have : cleared + 1 + (emptyRow :: board.eraseIdx row.toNat).countP fullRow =
            cleared + board.countP fullRow := by omega
        rw [this]
      · rw [if_neg hfull]
        have hfull' : fullRow board[row.toNat] = false := by
          rw [← hgetd]
          exact Bool.eq_false_iff.mpr hfull
        have hafter' : ∀ r ∈ board.drop ((row - 1) + 1).toNat, fullRow r = false := by
          intro r hr
          rw [show ((row : Int) - 1 + 1).toNat = row.toNat by omega,
            List.drop_eq_getElem_cons hk] at hr
          rcases List.mem_cons.mp hr with h | h
          · rw [h]; exact hfull'
          · exact hafter r (by rwa [show ((row : Int) + 1).toNat = row.toNat + 1
              by omega])
        exact ih board (row - 1) cleared (by omega) hafter' (by omega)

/-- C5 (core).  On a board of the full height, `clearFullRows` removes
exactly the full rows (returning their count), prepends that many all-empty
rows, and keeps the surviving rows in order. -/
theorem clearFullRows_eq (board : Grid) (h20 : board.length = BOARD_HEIGHT) :
    clearFullRows board =
      (List.replicate (board.countP fullRow) emptyRow ++
         board.filter (fun r => !fullRow r),
       board.countP fullRow) := by
  unfold clearFullRows
  rw [clearLoop_spec (2 * BOARD_HEIGHT + 1) board ((BOARD_HEIGHT : Int) - 1) 0
    (by rw [h20]; omega)
    (by
      intro r hr
      rw [show (((BOARD_HEIGHT : Int) - 1) + 1).toNat = BOARD_HEIGHT by omega,
        ← h20, List.drop_length] at hr
      exact absurd hr (List.not_mem_nil r))
    (by
      have := List.countP_le_length (p := fullRow) (l := board)
      rw [h20] at this
      omega)]
  rw [Nat.zero_add]

theorem countP_add_length_filter_not (l : Grid) (p : List Nat → Bool) :
    l.countP p + (l.filter fun a => !p a).length = l.length := by
  induction l with
  | nil => rfl
  | cons a l ih =>
    by_cases h : p a = true
    · rw [List.countP_cons_of_pos _ _ h, List.filter_cons_of_neg (by
        rw [h]
        exact fun hc => Bool.noConfusion hc), List.length_cons]
      omega
    · rw [List.countP_cons_of_neg _ _ h, List.filter_cons_of_pos
        (by rw [Bool.eq_false_iff.mpr h]; rfl), List.length_cons, List.length_cons]
      omega

/-- C5.  On a 20-row board of 10-wide rows, the line-clearing step removes
exactly the fully-filled rows and returns their count, inserts that many
all-empty rows at the top, keeps the grid dimensions, preserves the order of
the remaining rows, and on a board with no full row returns 0 leaving the
grid unchanged. -/
theorem clearFullRows_correct (board : Grid)
    (h20 : board.length = BOARD_HEIGHT)
    (hw : ∀ r ∈ board, r.length = BOARD_WIDTH) :
    (clearFullRows board).2 = board.countP fullRow ∧
    (clearFullRows board).1 =
      List.replicate (board.countP fullRow) emptyRow ++
        board.filter (fun r => !fullRow r) ∧
    (clearFullRows board).1.length = BOARD_HEIGHT ∧
    (∀ r ∈ (clearFullRows board).1, r.length = BOARD_WIDTH) ∧
    (board.countP fullRow = 0 → (clearFullRows board).1 = board) := by
  rw [clearFullRows_eq board h20]
  refine ⟨rfl, rfl, ?_, ?_, ?_⟩
  · rw [List.length_append, List.length_replicate,
      countP_add_length_filter_not board fullRow, h20]
  · intro r hr
    rcases List.mem_append.mp hr with h | h
    · rw [List.eq_of_mem_replicate h]
      rfl
    · exact hw r (List.mem_of_mem_filter h)
  · intro hzero
    rw [hzero, List.replicate_zero, List.nil_append]
    exact List.filter_eq_self.mpr fun a ha => by
      rw [Bool.not_eq_true']
      exact Bool.eq_false_iff.mpr (List.countP_eq_zero.mp hzero a ha)

/-- A 20x10 board whose single full row is the bottom one. -/
def boardOneFull : Grid :=
  List.replicate 19 emptyRow ++ [List.replicate BOARD_WIDTH 1]

/-- C5 witness: the characterization applied to a board with exactly one full
row. -/
theorem clearFullRows_correct_witness :
    (clearFullRows boardOneFull).2 = boardOneFull.countP fullRow ∧
    (clearFullRows boardOneFull).1 =
      List.replicate (boardOneFull.countP fullRow) emptyRow ++
        boardOneFull.filter (fun r => !fullRow r) ∧
    (clearFullRows boardOneFull).1.length = BOARD_HEIGHT ∧
    (∀ r ∈ (clearFullRows boardOneFull).1, r.length = BOARD_WIDTH) ∧
    (boardOneFull.countP fullRow = 0 → (clearFullRows boardOneFull).1 = boardOneFull) :=
  clearFullRows_correct boardOneFull (by decide) (by decide)

/-! ### Lock-level claims -/

/-- C6.  A lock changes the score by exactly `100 * linesCleared` (where
`linesCleared` counts the rows cleared by this lock), so within a game the
score never decreases. -/
theorem lock_score_delta (s : GameState) (piece newPiece : Grid)
    (hpiece : s.currentPiece = some piece) :
    (placePiece s newPiece).1.score =
      s.score + (clearFullRows (place s.board piece s.posX s.posY)).2 * 100 ∧
    s.score ≤ (placePiece s newPiece).1.score := by
  obtain ⟨bo, cp, px, py, sc, go, gs, cn⟩ := s
  simp only at hpiece
  subst hpiece
  simp only [placePiece]
  by_cases hcm : canMove bo newPiece (startX newPiece) 0
  · rw [if_pos hcm]
    simp only
    by_cases hlc : 0 < (clearFullRows (place bo piece px py)).2
    · rw [if_pos hlc]
      omega
    · rw [if_neg hlc]
      omega
  · rw [if_neg hcm]
    simp only
    by_cases hlc : 0 < (clearFullRows (place bo piece px py)).2
    · rw [if_pos hlc]
      omega
    · rw [if_neg hlc]
      omega

/-- A pre-lock state: board empty except the bottom row is full in its six
left columns; the active I piece sits at (6, 19) and will complete that row. -/
def boardBottomNearFull : Grid :=
  List.replicate 19 emptyRow ++ [[1, 1, 1, 1, 1, 1, 0, 0, 0, 0]]

def stateBottomLock : GameState :=
  { board := boardBottomNearFull, currentPiece := some TETROMINO_I,
    posX := 6, posY := 19, score := 0, gameOver := false,
    gameStarted := true, connected := true }

/-- C6 witness: the score delta at the concrete bottom-row lock (one line
cleared, `0 + 1 * 100`). -/
theorem lock_score_delta_witness :
    (placePiece stateBottomLock TETROMINO_O).1.score =
      stateBottomLock.score +
        (clearFullRows (place stateBottomLock.board TETROMINO_I
          stateBottomLock.posX stateBottomLock.posY)).2 * 100 ∧
    stateBottomLock.score ≤ (placePiece stateBottomLock TETROMINO_O).1.score :=
  lock_score_delta stateBottomLock TETROMINO_I TETROMINO_O rfl

/-- C10.  Invoking the lock operation with no active piece is a complete
no-op: the state is returned unchanged and no message is sent. -/
theorem placePiece_no_piece_noop (s : GameState) (newPiece : Grid)
    (h : s.currentPiece = none) : placePiece s newPiece = (s, []) := by
  obtain ⟨bo, cp, px, py, sc, go, gs, cn⟩ := s
  simp only at h
  subst h
  rfl

/-- C10 witness: the no-op at a concrete pieceless state. -/
theorem placePiece_no_piece_noop_witness :
    placePiece { board := emptyBoard, currentPiece := none, posX := 0, posY := 0,
                 score := 0, gameOver := false, gameStarted := true,
                 connected := true } TETROMINO_O =
      ({ board := emptyBoard, currentPiece := none, posX := 0, posY := 0,
         score := 0, gameOver := false, gameStarted := true,
         connected := true }, []) :=
  placePiece_no_piece_noop _ TETROMINO_O rfl

/-- A pre-lock state whose lock fills the top two rows almost completely:
rows 0 and 1 are settled except at columns 4, 5 (under the active O piece)
and column 9; row 2 blocks the O from falling further. -/
def boardStaleTop : Grid :=
  [[1, 1, 1, 1, 0, 0, 1, 1, 1, 0],
   [1, 1, 1, 1, 0, 0, 1, 1, 1, 0],
   [0, 0, 0, 0, 1, 1, 0, 0, 0, 0]] ++ List.replicate 17 emptyRow

/-- `boardStaleTop` after the O piece at (4, 0) is committed (no row becomes
full, so nothing is cleared). -/
def boardStaleTopAfter : Grid :=
  [[1, 1, 1, 1, 1, 1, 1, 1, 1, 0],
   [1, 1, 1, 1, 1, 1, 1, 1, 1, 0],
   [0, 0, 0, 0, 1, 1, 0, 0, 0, 0]] ++ List.replicate 17 emptyRow

def stateStaleTop : GameState :=
  { board := boardStaleTop, currentPiece := some TETROMINO_O,
    posX := 4, posY := 0, score := 0, gameOver := false,
    gameStarted := true, connected := true }

/-- C2 bug evidence.  Locking the O piece at (4, 0) on `boardStaleTop` leaves
a board on which the fresh O cannot spawn at the centered column of row 0
(third conjunct), yet the engine does not transition to GameOver and sends a
`game_state` message, because the spawn check reads the stale pre-lock board
captured by the `canMove` closure. -/
theorem spawn_check_uses_stale_board :
    (placePiece stateStaleTop TETROMINO_O).1.gameOver = false ∧
    (placePiece stateStaleTop TETROMINO_O).2 =
      [Msg.game_state boardStaleTopAfter 0] ∧
    canMove boardStaleTopAfter TETROMINO_O (startX TETROMINO_O) 0 = false ∧
    (placePiece stateStaleTop TETROMINO_O).1.board = boardStaleTopAfter := by
  refine ⟨rfl, rfl, rfl, rfl⟩

/-- C3 bug evidence.  The bottom-row lock on `stateBottomLock` clears one
line: the engine's score becomes 100, but the `game_state` frame it emits
carries the captured pre-update score 0 (together with the post-clear board),
because the message construction reads the stale `score` binding. -/
theorem lock_message_carries_stale_score :
    (placePiece stateBottomLock TETROMINO_O).1.score = 100 ∧
    (placePiece stateBottomLock TETROMINO_O).2 =
      [Msg.game_state emptyBoard 0] := by
  refine ⟨rfl, rfl⟩

/-! ### Rotation and the opponent snapshot -/

/-- C7.  For each canonical shape and each shape reachable from it by
rotation, four clockwise rotations reproduce the original occupancy pattern
cell for cell; and a single rotation is the transposed-and-reversed grid:
cell `(i, j)` of the rotation equals cell `(height - 1 - j, i)` of the input.
(The embedding is purely functional, so `rotateClockwise` returning a fresh
grid without mutating its argument is inherent.) -/
theorem rotate_four_cycles (s : Grid) (hs : s ∈ tetrominoes) (k : Nat)
    (hk : k < 4) :
    rotateClockwise^[4] (rotateClockwise^[k] s) = rotateClockwise^[k] s ∧
    (∀ i < ((rotateClockwise^[k] s).getD 0 []).length,
      ∀ j < (rotateClockwise^[k] s).length,
        ((rotateClockwise (rotateClockwise^[k] s)).getD i []).getD j 0 =
          ((rotateClockwise^[k] s).getD
            ((rotateClockwise^[k] s).length - 1 - j) []).getD i 0) := by
  fin_cases hs <;> interval_cases k <;> exact ⟨by decide, by decide⟩

/-- C7 witness: the T piece rotated once, then four more times. -/
theorem rotate_four_cycles_witness :
    rotateClockwise^[4] (rotateClockwise^[1] TETROMINO_T) =
      rotateClockwise^[1] TETROMINO_T ∧
    (∀ i < ((rotateClockwise^[1] TETROMINO_T).getD 0 []).length,
      ∀ j < (rotateClockwise^[1] TETROMINO_T).length,
        ((rotateClockwise (rotateClockwise^[1] TETROMINO_T)).getD i []).getD j 0 =
          ((rotateClockwise^[1] TETROMINO_T).getD
            ((rotateClockwise^[1] TETROMINO_T).length - 1 - j) []).getD i 0) :=
  rotate_four_cycles TETROMINO_T (by decide) 1 (by decide)

/-- C8.  An inbound `opponent_state` frame replaces the stored opponent
snapshot by exactly the carried grid, whatever the rest of the client state;
and the opponent side of a render shows exactly the stored grid, with no
active-piece overlay, whatever the local engine's piece and position. -/
theorem opponent_state_replaces_snapshot (c : ClientState) (g : Grid)
    (sc : Nat) (cp : Option Grid) (px py : Int) :
    (onMessage c (InMsg.opponent_state g sc)).opponentBoard = g ∧
    displayBoard g true cp px py = g := by
  refine ⟨rfl, ?_⟩
  cases cp <;> rfl

/-! ### The 0/1 board invariant -/

theorem cells01_clearLoop (fuel : Nat) :
    ∀ (b : Grid) (row : Int) (cleared : Nat),
      cells01 b → cells01 (clearLoop fuel b row cleared).1 := by
  induction fuel with
  | zero => exact fun b row cleared hb => hb
  | succ fuel ih =>
    intro b row cleared hb
    have hstep : clearLoop (fuel + 1) b row cleared =
        if row < 0 then (b, cleared)
        else if fullRow (b.getD row.toNat []) then
          clearLoop fuel (emptyRow :: b.eraseIdx row.toNat) row (cleared + 1)
        else clearLoop fuel b (row - 1) cleared := rfl
    rw [hstep]
    by_cases h1 : row < 0
    · rw [if_pos h1]
      exact hb
    · rw [if_neg h1]
      by_cases h2 : fullRow (b.getD row.toNat []) = true
      · rw [if_pos h2]
        refine ih _ _ _ ?_
        intro r hr w hw
        rcases List.mem_cons.mp hr with h | h
        · subst h
          exact Or.inl (List.eq_of_mem_replicate hw)
        · exact hb r (List.eraseIdx_subset _ _ h) w hw
      · rw [if_neg h2]
        exact ih _ _ _ hb

theorem cells01_placePiece {s : GameState} (newPiece : Grid)
    (hb : cells01 s.board) :
    cells01 (placePiece s newPiece).1.board ∧
    ∀ b sc, Msg.game_state b sc ∈ (placePiece s newPiece).2 → cells01 b := by
  obtain ⟨bo, cp, px, py, sc0, go, gs, cn⟩ := s
  simp only at hb
  cases cp with
  | none =>
    refine ⟨hb, ?_⟩
    intro b sc h
    simp only [placePiece] at h
    exact absurd h (List.not_mem_nil _)
  | some piece =>
    have hnew : cells01 (clearFullRows (place bo piece px py)).1 :=
      cells01_clearLoop _ _ _ _ (cells01_place piece px py hb)
    simp only [placePiece]
    by_cases hcm : canMove bo newPiece (startX newPiece) 0
    · rw [if_pos hcm]
      refine ⟨hnew, ?_⟩
      intro b sc h
      cases cn with
      | false => exact absurd h (List.not_mem_nil _)
      | true =>
        rw [if_pos rfl] at h
        rw [List.mem_singleton] at h
        injection h with h1 h2
        rw [← h1] at hnew
        exact hnew
    · rw [if_neg hcm]
      refine ⟨hnew, ?_⟩
      intro b sc h
      cases cn with
      | false => exact absurd h (List.not_mem_nil _)
      | true =>
        rw [if_pos rfl] at h
        rw [List.mem_singleton] at h
        exact Msg.noConfusion h

theorem cells01_moveDown {s : GameState} (newPiece : Grid)
    (hb : cells01 s.board) :
    cells01 (moveDown s newPiece).1.board ∧
    ∀ b sc, Msg.game_state b sc ∈ (moveDown s newPiece).2 → cells01 b := by
  obtain ⟨bo, cp, px, py, sc0, go, gs, cn⟩ := s
  simp only at hb
  cases cp with
  | none =>
    exact ⟨hb, fun b sc h => absurd h (List.not_mem_nil _)⟩
  | some piece =>
    simp only [moveDown]
    by_cases hgo : go = true
    · subst hgo
      rw [if_pos rfl]
      exact ⟨hb, fun b sc h => absurd h (List.not_mem_nil _)⟩
    · rw [if_neg (by simpa using hgo)]
      by_cases hcm : canMove bo piece px (py + 1)
      · rw [if_pos hcm]
        exact ⟨hb, fun b sc h => absurd h (List.not_mem_nil _)⟩
      · rw [if_neg hcm]
        exact cells01_placePiece newPiece hb

theorem cells01_handleKeyPress {s : GameState} (k : Key) (newPiece : Grid)
    (hb : cells01 s.board) :
    cells01 (handleKeyPress s k newPiece).1.board ∧
    ∀ b sc, Msg.game_state b sc ∈ (handleKeyPress s k newPiece).2 → cells01 b := by
  obtain ⟨bo, cp, px, py, sc0, go, gs, cn⟩ := s
  simp only at hb
  cases cp with
  | none =>
    exact ⟨hb, fun b sc h => absurd h (List.not_mem_nil _)⟩
  | some piece =>
    simp only [handleKeyPress]
    by_cases hgo : go = true
    · subst hgo
      rw [if_pos rfl]
      exact ⟨hb, fun b sc h => absurd h (List.not_mem_nil _)⟩
    · rw [if_neg (by simpa using hgo)]
      cases k with
      | left =>
        by_cases hcm : canMove bo piece (px - 1) py
        · rw [if_pos hcm]
          exact ⟨hb, fun b sc h => absurd h (List.not_mem_nil _)⟩
        · rw [if_neg hcm]
          exact ⟨hb, fun b sc h => absurd h (List.not_mem_nil _)⟩
      | right =>
        by_cases hcm : canMove bo piece (px + 1) py
        · rw [if_pos hcm]
          exact ⟨hb, fun b sc h => absurd h (List.not_mem_nil _)⟩
        · rw [if_neg hcm]
          exact ⟨hb, fun b sc h => absurd h (List.not_mem_nil _)⟩
      | down =>
        exact cells01_moveDown newPiece hb
      | up =>
        by_cases hcm : canMove bo (rotateClockwise piece) px py
        · rw [if_pos hcm]
          exact ⟨hb, fun b sc h => absurd h (List.not_mem_nil _)⟩
        · rw [if_neg hcm]
          exact ⟨hb, fun b sc h => absurd h (List.not_mem_nil _)⟩

/-- C9.  Wire/engine invariant: the engine board holds only cells 0 and 1,
and so does every board carried by an outbound `game_state` frame; the
invariant is established by `startGame` (all-empty board) and preserved by
lateral moves, rotation, drops, and locks (including their line clears).
The Active marker 2 exists only in the per-render `displayBoard` copy. -/
theorem board_cells_binary_invariant (s : GameState) (k : Key)
    (firstPiece newPiece : Grid) (hb : cells01 s.board) :
    cells01 (startGame s firstPiece).board ∧
    cells01 (placePiece s newPiece).1.board ∧
    cells01 (moveDown s newPiece).1.board ∧
    cells01 (handleKeyPress s k newPiece).1.board ∧
    (∀ b sc, Msg.game_state b sc ∈ (placePiece s newPiece).2 → cells01 b) ∧
    (∀ b sc, Msg.game_state b sc ∈ (moveDown s newPiece).2 → cells01 b) ∧
    (∀ b sc, Msg.game_state b sc ∈ (handleKeyPress s k newPiece).2 → cells01 b) := by
  obtain ⟨h1, h2⟩ := cells01_placePiece (s := s) newPiece hb
  obtain ⟨h3, h4⟩ := cells01_moveDown (s := s) newPiece hb
  obtain ⟨h5, h6⟩ := cells01_handleKeyPress (s := s) k newPiece hb
  refine ⟨?_, h1, h3, h5, h2, h4, h6⟩
  intro r hr w hw
  rw [List.eq_of_mem_replicate (show r ∈ List.replicate BOARD_HEIGHT emptyRow
    from hr)] at hw
  exact Or.inl (List.eq_of_mem_replicate hw)

/-- C9 witness: the invariant at a concrete connected mid-game state. -/
theorem board_cells_binary_invariant_witness :
    cells01 (startGame stateBottomLock TETROMINO_T).board ∧
    cells01 (placePiece stateBottomLock TETROMINO_O).1.board ∧
    cells01 (moveDown stateBottomLock TETROMINO_O).1.board ∧
    cells01 (handleKeyPress stateBottomLock Key.down TETROMINO_O).1.board ∧
    (∀ b sc, Msg.game_state b sc ∈ (placePiece stateBottomLock TETROMINO_O).2 →
      cells01 b) ∧
    (∀ b sc, Msg.game_state b sc ∈ (moveDown stateBottomLock TETROMINO_O).2 →
      cells01 b) ∧
    (∀ b sc, Msg.game_state b sc ∈
        (handleKeyPress stateBottomLock Key.down TETROMINO_O).2 → cells01 b) :=
  board_cells_binary_invariant stateBottomLock Key.down TETROMINO_T TETROMINO_O
    (by decide)

end Tetris
